import Mathlib

/-!
Verification of the hexing hexagonal-grid library.

Shallow embedding of the Rust sources (`src/lib.rs`, `src/utils.rs`,
`src/layout.rs`) instantiated at the coordinate scalar `isize`, modelled by
`Int`.  Rust `f32` arithmetic in the line iterator is modelled by exact
rational arithmetic (`ℚ`) with round-half-away-from-zero, matching
`f32::round`.  Hash-map based containers are modelled by association lists;
panics are modelled by an explicit result constructor.
-/

namespace Hexing

/-- Axial position `HexPosition<T>` at `T = isize`, modelled as `Int × Int`. -/
abbrev Pos := Int × Int

/-- `HexDirection`: the six unit directions of the hexagonal grid. -/
inductive HexDirection where
  | Right
  | UpRight
  | UpLeft
  | Left
  | DownLeft
  | DownRight
deriving DecidableEq, Repr

open HexDirection

/-- `HexDirection::to_vector`. -/
def toVector : HexDirection → Pos
  | .Right => (1, 0)
  | .UpRight => (1, -1)
  | .UpLeft => (0, -1)
  | .Left => (-1, 0)
  | .DownLeft => (-1, 1)
  | .DownRight => (0, 1)

/-- Componentwise addition of positions (the `Add` impl for `HexPosition`). -/
def padd (a b : Pos) : Pos := (a.1 + b.1, a.2 + b.2)

/-- Multiplication of a position by a scalar (the `Mul<T>` impl). -/
def pmul (a : Pos) (k : Int) : Pos := (a.1 * k, a.2 * k)

/-- `Number::max` default implementation: `if self > other { self } else { other }`. -/
def nmax (a b : Int) : Int := if a > b then a else b

/-- `Number::abs` default implementation: `if self < 0 { -self } else { self }`. -/
def nabs (a : Int) : Int := if a < 0 then -a else a

/-- `HexPosition::distance`:
`(Δq).abs().max((Δr).abs()).max((-q₁-r₁-(-q₂-r₂)).abs())`. -/
def distance (a b : Pos) : Int :=
  nmax (nmax (nabs (a.1 - b.1)) (nabs (a.2 - b.2)))
    (nabs (-a.1 - a.2 - (-b.1 - b.2)))

/-- State of the `HexRing` iterator. -/
structure RingState where
  current : Pos
  direction : HexDirection
  radius : Nat
  index : Nat
deriving DecidableEq, Repr

/-- One step of `impl Iterator for HexRing`'s `next`. -/
def ringNext (s : RingState) : Option (Pos × RingState) :=
  if s.index ≥ s.radius then
    match s.direction with
    | .DownRight => none
    | d =>
      let d' := match d with
        | .Right => HexDirection.UpRight
        | .UpRight => HexDirection.UpLeft
        | .UpLeft => HexDirection.Left
        | .Left => HexDirection.DownLeft
        | _ => HexDirection.DownRight
      some (s.current, ⟨padd s.current (toVector d'), d', s.radius, 1⟩)
  else
    some (s.current,
      ⟨padd s.current (toVector s.direction), s.direction, s.radius, s.index + 1⟩)

/-- Collects the emissions of a `next`-style iterator, bounded by `fuel`. -/
def iterGo {σ : Type} (next : σ → Option (Pos × σ)) : Nat → σ → List Pos
  | 0, _ => []
  | fuel + 1, s =>
    match next s with
    | none => []
    | some (p, s') => p :: iterGo next fuel s'

/-- `HexPosition::ring`: initial iterator state
`{ current: self + DownLeft * radius, direction: Right, radius, index: 0 }`. -/
def ringInit (c : Pos) (r : Nat) : RingState :=
  ⟨padd c (pmul (toVector .DownLeft) (Int.ofNat r)), .Right, r, 0⟩

/-- The full emission list of a ring iterator state (fuel is an upper bound
on the number of `next` calls; `6r + 6` always suffices). -/
def ringToList (s : RingState) : List Pos :=
  iterGo ringNext (6 * s.radius + 6) s

/-- The list of positions produced by `c.ring(r)`. -/
def ringList (c : Pos) (r : Nat) : List Pos := ringToList (ringInit c r)

/-- State of the `HexSpiral` iterator. -/
structure SpiralState where
  origin : Pos
  current : RingState
  radius : Nat
  index : Nat
deriving DecidableEq, Repr

/-- One step of `impl Iterator for HexSpiral`'s `next`. -/
def spiralNext (s : SpiralState) : Option (Pos × SpiralState) :=
  if s.index = 0 then
    some (s.origin, ⟨s.origin, s.current, s.radius, 1⟩)
  else if s.index > s.radius then
    none
  else
    match ringNext s.current with
    | some (p, rs) => some (p, ⟨s.origin, rs, s.radius, s.index⟩)
    | none =>
      if s.index < s.radius then
        match ringNext (ringInit s.origin (s.index + 1)) with
        | some (p, rs) => some (p, ⟨s.origin, rs, s.radius, s.index + 1⟩)
        | none => none
      else
        none

/-- The full emission list of a spiral iterator state (the fuel bound
`3r² + 3r + 2` covers the `1 + 3r(r+1)` emissions plus the final `None`). -/
def spiralToList (s : SpiralState) : List Pos :=
  iterGo spiralNext (3 * s.radius * s.radius + 3 * s.radius + 2) s

/-- The list of positions produced by `c.spiral(r)`:
initial state `{ origin: self, current: self.ring(1), radius, index: 0 }`. -/
def spiralList (c : Pos) (r : Nat) : List Pos :=
  spiralToList ⟨c, ringInit c 1, r, 0⟩

/-- `f32::round` modelled on `ℚ`: round half away from zero. -/
def roundQ (x : ℚ) : Int := if x < 0 then -⌊-x + 1 / 2⌋ else ⌊x + 1 / 2⌋

/-- `utils::axial_round`, with `f32` modelled by `ℚ`. -/
def axialRound (pos : ℚ × ℚ) : Pos :=
  let q := pos.1
  let r := pos.2
  let s := -q - r
  let rq := roundQ q
  let rr := roundQ r
  let rs := roundQ s
  let q_diff := |(rq : ℚ) - q|
  let r_diff := |(rr : ℚ) - r|
  let s_diff := |(rs : ℚ) - s|
  if q_diff > r_diff ∧ q_diff > s_diff then (-rr - rs, rr)
  else if r_diff > s_diff then (rq, -rq - rs)
  else (rq, rr)

/-- The `lerp` crate's linear interpolation on `f32`, modelled by `ℚ`
(`a + (b - a) * t`, equal to `a * (1 - t) + b * t` in exact arithmetic). -/
def lerpQ (a b t : ℚ) : ℚ := a + (b - a) * t

/-- State of the `HexLine` iterator. -/
structure LineState where
  start : Pos
  stop : Pos
  maxIndex : Nat
  currentIndex : Nat
deriving DecidableEq, Repr

/-- The interpolated-and-rounded sample emitted by `HexLine::next` at
index `i` of a line with `maxIndex = m` from `p` to `q`. -/
def lineSample (p q : Pos) (m : Nat) (i : Nat) : Pos :=
  axialRound
    (lerpQ (p.1 : ℚ) (q.1 : ℚ) ((i : ℚ) / (m : ℚ)),
     lerpQ (p.2 : ℚ) (q.2 : ℚ) ((i : ℚ) / (m : ℚ)))

/-- One step of `impl Iterator for HexLine`'s `next`. -/
def lineNext (s : LineState) : Option (Pos × LineState) :=
  if s.currentIndex = s.maxIndex + 1 then none
  else if s.start = s.stop then
    some (s.start, ⟨s.start, s.stop, s.maxIndex, s.currentIndex + 1⟩)
  else
    some (lineSample s.start s.stop s.maxIndex s.currentIndex,
      ⟨s.start, s.stop, s.maxIndex, s.currentIndex + 1⟩)

/-- `HexPosition::line_to`: initial iterator state with
`max_index = distance(self, other)` and `current_index = 0`. -/
def lineInit (p q : Pos) : LineState := ⟨p, q, (distance p q).toNat, 0⟩

/-- The list of positions produced by `p.line_to(q)` (the fuel bound
`max_index + 2` covers the `max_index + 1` emissions plus the final `None`). -/
def lineList (p q : Pos) : List Pos :=
  iterGo lineNext ((distance p q).toNat + 2) (lineInit p q)

/-! ## The grid layer (`HexLayout<bool, isize>`), modelled as an
association list from positions to booleans. -/

/-- A boolean layer: the `HashMap<HexPosition, bool>` content as an
association list (first binding of a key is its value). -/
abbrev Layer := List (Pos × Bool)

/-- `HashMap::get` on the association list. -/
def layGet : Layer → Pos → Option Bool
  | [], _ => none
  | (k, v) :: rest, p => if k = p then some v else layGet rest p

/-- `HashMap::contains_key`. -/
def layContains (L : Layer) (p : Pos) : Bool := (layGet L p).isSome

/-- `HexLayout::set` (`HashMap::insert`): replace-or-append. -/
def laySet : Layer → Pos → Bool → Layer
  | [], p, v => [(p, v)]
  | (k, w) :: rest, p, v =>
    if k = p then (p, v) :: rest else (k, w) :: laySet rest p v

/-- The integer interval `[a, b]` as a list (empty when `a > b`). -/
def intRange (a b : Int) : List Int :=
  (List.range (b + 1 - a).toNat).map fun i => a + (i : Int)

/-- `HexLayout::new_from_range` for `D = bool`: every cell of the hexagon of
radius `range - 1` around `center`, initialised to `bool::default() = false`. -/
def newFromRange (range : Nat) (center : Pos) : Layer :=
  let rg : Int := (range : Int) - 1
  (intRange (-rg) rg).flatMap fun q =>
    (intRange (-rg) rg).filterMap fun r =>
      let s := -q - r
      if -rg ≤ s ∧ s ≤ rg then some ((q + center.1, r + center.2), false)
      else none

/-- Modelled from the spec: `HexDirection::iter()` is called by
`utils::neighbors` but its definition is not among the provided sources;
§3 of the spec fixes the enumeration order
Right → UpRight → UpLeft → Left → DownLeft → DownRight. -/
def directionIter : List HexDirection :=
  [.Right, .UpRight, .UpLeft, .Left, .DownLeft, .DownRight]

/-- `utils::neighbors`: the six adjacent positions in direction order. -/
def neighbors (p : Pos) : List Pos :=
  directionIter.map fun d => padd p (toVector d)

/-- `HexLayout::neighbors_unblocked`: neighbors whose stored value is
`false`; absent positions count as blocked (`unwrap_or(&true)`). -/
def neighborsUnblocked (L : Layer) (p : Pos) : List Pos :=
  (neighbors p).filter fun nb => !((layGet L nb).getD true)

/-! ## Field of view -/

/-- The visibility test applied to one layer position by
`HexLayout::field_of_view`. -/
def fovVisible (L : Layer) (center : Pos) (range : Option Nat) (p : Pos) : Bool :=
  (match range with
   | some radius => !(distance p center > (radius : Int))
   | none => true)
  && (lineList center p).all fun pb =>
       layContains L pb && !(layGet L pb == some true)

/-- `HexLayout::field_of_view`: the layer positions passing the
visibility test (the `HashSet` is modelled by the filtered key list). -/
def fieldOfView (L : Layer) (center : Pos) (range : Option Nat) : List Pos :=
  (L.map Prod.fst).filter (fovVisible L center range)

/-! ## Field of move -/

/-- Inner loop of `field_of_move`: process the unblocked neighbors of one
fringe position, growing `visited` and `to_add` with the unvisited ones. -/
def addNbrs : List Pos → List Pos → List Pos → List Pos × List Pos
  | visited, toAdd, [] => (visited, toAdd)
  | visited, toAdd, nb :: rest =>
    if nb ∈ visited then addNbrs visited toAdd rest
    else addNbrs (visited ++ [nb]) (toAdd ++ [nb]) rest

/-- One level of `field_of_move`: expand every position of the previous
fringe. -/
def expandFringe (L : Layer) : List Pos → List Pos → List Pos → List Pos × List Pos
  | visited, toAdd, [] => (visited, toAdd)
  | visited, toAdd, p :: rest =>
    let r := addNbrs visited toAdd (neighborsUnblocked L p)
    expandFringe L r.1 r.2 rest

/-- The `for k in 1..=range` loop of `field_of_move`, counting down the
remaining levels. -/
def fomLoop (L : Layer) : Nat → List Pos → List Pos → List Pos
  | 0, visited, _ => visited
  | k + 1, visited, fringe =>
    let r := expandFringe L visited [] fringe
    fomLoop L k r.1 r.2

/-- `HexLayout::field_of_move` (the `HashSet` of visited positions is
modelled by the duplicate-free visited list). -/
def fieldOfMove (L : Layer) (pos : Pos) (range : Nat) : List Pos :=
  fomLoop L range [pos] [pos]

/-! ## Pathfinding -/

/-- Result of `pathfinding`: a returned path, a panic
(`"Position not in layout"`), or exhaustion of the loop fuel (never
reached, see `astarLoop_terminates`). -/
inductive PathResult where
  | panic : PathResult
  | path : List Pos → PathResult
  | outOfFuel : PathResult
deriving DecidableEq, Repr

/-- `PriorityQueue::pop`: remove an entry of maximal priority (ties to the
earliest entry). -/
def pqPop : List (Pos × Int) → Option ((Pos × Int) × List (Pos × Int))
  | [] => none
  | x :: rest =>
    match pqPop rest with
    | none => some (x, [])
    | some (m, rtail) => if m.2 > x.2 then some (m, x :: rtail)
      else some (x, rest)

/-- Generic association-list lookup for the A* bookkeeping maps. -/
def alistGet {β : Type} : List (Pos × β) → Pos → Option β
  | [], _ => none
  | (k, v) :: rest, p => if k = p then some v else alistGet rest p

/-- Generic association-list insert (`HashMap::insert`): replace-or-append. -/
def alistInsert {β : Type} : List (Pos × β) → Pos → β → List (Pos × β)
  | [], p, v => [(p, v)]
  | (k, w) :: rest, p, v =>
    if k = p then (p, v) :: rest else (k, w) :: alistInsert rest p v

/-- The mutable state of the A* search loop. -/
structure AStarState where
  frontier : List (Pos × Int)
  cameFrom : List (Pos × Option Pos)
  costSoFar : List (Pos × Int)

/-- The `for next in self.neighbors_unblocked(current)` body of the A*
loop. -/
def processNeighbors (to_ current : Pos) :
    List Pos → AStarState → AStarState
  | [], st => st
  | next :: rest, st =>
    if (alistGet st.cameFrom next).isSome then
      processNeighbors to_ current rest st
    else
      match alistGet st.costSoFar current with
      | none => processNeighbors to_ current rest st
      | some c =>
        let newCost := c + 1
        let better := match alistGet st.costSoFar next with
          | none => true
          | some old => newCost < old
        if better then
          processNeighbors to_ current rest
            ⟨st.frontier ++ [(next, -newCost - distance next to_)],
             alistInsert st.cameFrom next (some current),
             alistInsert st.costSoFar next newCost⟩
        else
          processNeighbors to_ current rest st

/-- The `while let Some((current, _)) = frontier.pop()` loop of A*. -/
def astarLoop (L : Layer) (to_ : Pos) : Nat → AStarState → Option AStarState
  | 0, _ => none
  | fuel + 1, st =>
    match pqPop st.frontier with
    | none => some st
    | some ((current, _), frontier') =>
      if current = to_ then some ⟨frontier', st.cameFrom, st.costSoFar⟩
      else
        astarLoop L to_ fuel
          (processNeighbors to_ current (neighborsUnblocked L current)
            ⟨frontier', st.cameFrom, st.costSoFar⟩)

/-- The back-pointer walk reconstructing the path
(`while let Some(Some(prev)) = came_from.get(&current)`); fuel bounds the
walk, one step per `came_from` entry plus one. -/
def backWalk (cameFrom : List (Pos × Option Pos)) :
    Nat → List Pos → Pos → List Pos
  | 0, path, _ => path
  | fuel + 1, path, current =>
    match alistGet cameFrom current with
    | some (some prev) => backWalk cameFrom fuel (path ++ [prev]) prev
    | _ => path

/-- `HexLayout::pathfinding`.  The loop fuel `L.length + 2` provably
exceeds the number of loop iterations, so `outOfFuel` is never returned. -/
def pathfinding (L : Layer) (from_ to_ : Pos) : PathResult :=
  if from_ = to_ then .path [from_]
  else if ¬ layContains L from_ ∨ ¬ layContains L to_ then .panic
  else
    match astarLoop L to_ (L.length + 2) ⟨[(from_, 0)], [(from_, none)], [(from_, 0)]⟩ with
    | none => .outOfFuel
    | some st =>
      .path ((backWalk st.cameFrom (st.cameFrom.length + 1) [to_] to_).reverse)

/-! ## Auxiliary definitions used in theorem statements -/

/-- A straight walk of `n` emissions starting at `p`, stepping by `v`:
the shape of one side of a ring. -/
def walkSeg (p v : Pos) : Nat → List Pos
  | 0 => []
  | n + 1 => p :: walkSeg (padd p v) v n

/-- The six sides of the ring of radius `r` around `c`, each walked `r`
steps, in the direction order Right, UpRight, UpLeft, Left, DownLeft,
DownRight, starting `r` steps DownLeft of `c`. -/
def ringSegs (c : Pos) (r : Nat) : List Pos :=
  walkSeg (padd c (-(r : Int), (r : Int))) (1, 0) r ++
  walkSeg (padd c (0, (r : Int))) (1, -1) r ++
  walkSeg (padd c ((r : Int), 0)) (0, -1) r ++
  walkSeg (padd c ((r : Int), -(r : Int))) (-1, 0) r ++
  walkSeg (padd c (0, -(r : Int))) (-1, 1) r ++
  walkSeg (padd c (-(r : Int), 0)) (0, 1) r

/-- Rank of a direction in the rotational order (used by the ring
iterator's remaining-emission count, mirroring its `size_hint`). -/
def dirRank : HexDirection → Nat
  | .Right => 0
  | .UpRight => 1
  | .UpLeft => 2
  | .Left => 3
  | .DownLeft => 4
  | .DownRight => 5

/-- Number of emissions a ring iterator state still produces. -/
def ringRem (s : RingState) : Nat := (6 - dirRank s.direction) * s.radius - s.index

/-- Ring iterator states reachable from a fresh ring of radius `≥ 1`. -/
def GoodRing (s : RingState) : Prop := s.index ≤ s.radius ∧ 1 ≤ s.radius

/-- Successor of a direction in the rotational order (the direction switch
performed by `HexRing::next`; unused at `DownRight`, where the iterator
stops). -/
def succDir : HexDirection → HexDirection
  | .Right => .UpRight
  | .UpRight => .UpLeft
  | .UpLeft => .Left
  | .Left => .DownLeft
  | _ => .DownRight

/-- Total emission count of the rings of the `n` consecutive radii
starting at `a` (each ring of radius `j` emits `6j` positions). -/
def sumSix (a n : Nat) : Nat := ((List.range' a n).map fun j => 6 * j).sum

/-- Modelled from the spec (§4.7 field of move): `reachable within k hops`,
where a hop goes from a position to a geometric neighbor that is a member
of the layer with value `false`; `0` hops reach only the start. -/
def ReachWithin (L : Layer) (src : Pos) : Nat → Pos → Prop
  | 0, p => p = src
  | k + 1, p => ReachWithin L src k p ∨
      ∃ q, ReachWithin L src k q ∧ p ∈ neighbors q ∧ layGet L p = some false

/-- One hop of the pathfinding search: to an unblocked neighbor. -/
def ReachStep (L : Layer) (a b : Pos) : Prop := b ∈ neighborsUnblocked L a

/-- Connectivity through unblocked member cells (any number of hops). -/
def Reach (L : Layer) : Pos → Pos → Prop := Relation.ReflTransGen (ReachStep L)

/-- The layer of the `field_of_move` doctest: a full radius-2 hexagon with
`(0,1)`, `(1,0)` and `(0,-2)` blocked. -/
def fomBlockedLayer : Layer :=
  laySet (laySet (laySet (newFromRange 3 (0, 0)) (0, 1) true) (1, 0) true)
    (0, -2) true

/-- Invariant of the A* loop state: the recorded back-pointer keys are
distinct, each is the start or an unblocked member cell, and every
recorded key and frontier entry is reachable from the start. -/
structure AInv (L : Layer) (src : Pos) (st : AStarState) : Prop where
  nodup : (st.cameFrom.map Prod.fst).Nodup
  keys_ok : ∀ e ∈ st.cameFrom, e.1 = src ∨ layGet L e.1 = some false
  reach : ∀ e ∈ st.cameFrom, Reach L src e.1
  frontier_reach : ∀ e ∈ st.frontier, Reach L src e.1

/-- Decreasing measure of the A* loop: frontier size plus the number of
back-pointer keys still recordable. -/
def astarMeasure (L : Layer) (st : AStarState) : Nat :=
  st.frontier.length + (L.length + 1 - st.cameFrom.length)

/-! # Theorems -/

theorem distance_self (p : Pos) : distance p p = 0 := by
  simp [distance, nmax, nabs]

theorem distance_eq_zero_iff {p q : Pos} : distance p q = 0 ↔ p = q := by
  rw [Prod.ext_iff]
  simp only [distance, nmax, nabs]
  split_ifs <;> omega

/-- C1 (counterexample): with `from = to` outside the layer's key set,
`pathfinding` does not panic — the degenerate early return fires first and
yields `[from]`. -/
theorem C1_counterexample :
    layGet ([] : Layer) (0, 0) = none ∧
    pathfinding ([] : Layer) (0, 0) (0, 0) = .path [(0, 0)] := by
  constructor
  · rfl
  · decide

/-- C1 (amended): for every boolean layer, calling `pathfinding(from, to)`
with `from ≠ to` and `from` or `to` not a member of the layer's key set
aborts with a panic; it never silently substitutes a default result.
(The degenerate `from = to` call returns `[from]` before the membership
check, so the panic guarantee holds only for distinct endpoints.) -/
theorem C1_pathfinding_nonmember_panics (L : Layer) (from_ to_ : Pos)
    (hne : from_ ≠ to_)
    (h : ¬ layContains L from_ ∨ ¬ layContains L to_) :
    pathfinding L from_ to_ = .panic := by
  unfold pathfinding
  rw [if_neg hne, if_pos h]

theorem C1_pathfinding_nonmember_panics_witness :
    pathfinding ([] : Layer) (0, 0) (1, 0) = .panic :=
  C1_pathfinding_nonmember_panics [] (0, 0) (1, 0) (by decide)
    (by left; decide)

/-- C2: for every boolean layer and every position `p`,
`pathfinding(p, p)` returns the single-element path `[p]` without invoking
search, with no membership precondition. -/
theorem C2_pathfinding_self (L : Layer) (p : Pos) :
    pathfinding L p p = .path [p] := by
  unfold pathfinding
  rw [if_pos rfl]

theorem iterGo_some {σ : Type} {next : σ → Option (Pos × σ)} {s s' : σ}
    {p : Pos} (fuel : Nat) (h : next s = some (p, s')) :
    iterGo next (fuel + 1) s = p :: iterGo next fuel s' := by
  conv_lhs => rw [iterGo, h]

theorem iterGo_none {σ : Type} {next : σ → Option (Pos × σ)} {s : σ}
    (fuel : Nat) (h : next s = none) :
    iterGo next (fuel + 1) s = [] := by
  conv_lhs => rw [iterGo, h]

theorem walkSeg_length (v : Pos) (n : Nat) :
    ∀ p : Pos, (walkSeg p v n).length = n := by
  induction n with
  | zero => intro p; rfl
  | succ n ih => intro p; simp [walkSeg, ih]

theorem padd_pmul_succ (p v : Pos) (n : Int) :
    padd (padd p v) (pmul v n) = padd p (pmul v (n + 1)) := by
  simp only [padd, pmul, Prod.mk.injEq]
  constructor <;> ring

theorem mem_walkSeg {q v : Pos} {n : Nat} :
    ∀ {p : Pos}, q ∈ walkSeg p v n ↔ ∃ i : Nat, i < n ∧ q = padd p (pmul v (i : Int)) := by
  induction n with
  | zero => intro p; simp [walkSeg]
  | succ n ih =>
    intro p
    simp only [walkSeg, List.mem_cons, ih]
    constructor
    · rintro (rfl | ⟨i, hi, rfl⟩)
      · exact ⟨0, by omega, by simp [padd, pmul]⟩
      · exact ⟨i + 1, by omega, by rw [padd_pmul_succ]; push_cast; ring_nf⟩
    · rintro ⟨i, hi, rfl⟩
      cases i with
      | zero => left; simp [padd, pmul]
      | succ i =>
        right
        refine ⟨i, by omega, ?_⟩
        rw [padd_pmul_succ]
        push_cast
        ring_nf

theorem ringNext_lt {cur : Pos} {d : HexDirection} {r i : Nat} (h : i < r) :
    ringNext ⟨cur, d, r, i⟩ =
      some (cur, ⟨padd cur (toVector d), d, r, i + 1⟩) := by
  simp [ringNext, Nat.not_le.2 h]

theorem ringNext_advance {cur : Pos} {d : HexDirection} {r i : Nat}
    (h : r ≤ i) (hd : d ≠ .DownRight) :
    ringNext ⟨cur, d, r, i⟩ =
      some (cur, ⟨padd cur (toVector (succDir d)), succDir d, r, 1⟩) := by
  cases d <;> simp_all [ringNext, succDir]

theorem ringNext_stop {cur : Pos} {r i : Nat} (h : r ≤ i) :
    ringNext ⟨cur, .DownRight, r, i⟩ = none := by
  simp [ringNext, h]

theorem ring_walk (n : Nat) :
    ∀ (cur : Pos) (d : HexDirection) (r i f : Nat), i + n = r →
    iterGo ringNext (n + f) ⟨cur, d, r, i⟩ =
      walkSeg cur (toVector d) n ++
        iterGo ringNext f ⟨padd cur (pmul (toVector d) (n : Int)), d, r, r⟩ := by
  induction n with
  | zero =>
    intro cur d r i f h
    subst h
    simp [walkSeg, padd, pmul]
  | succ n ih =>
    intro cur d r i f h
    have hi : i < r := by omega
    rw [show n + 1 + f = (n + f) + 1 by ring,
      iterGo_some (n + f) (ringNext_lt hi)]
    rw [ih (padd cur (toVector d)) d r (i + 1) f (by omega)]
    rw [walkSeg, padd_pmul_succ]
    push_cast
    simp

theorem ring_seg_step {cur : Pos} {d : HexDirection} {r f : Nat}
    (hd : d ≠ .DownRight) (hr : 1 ≤ r) :
    iterGo ringNext (r + f) ⟨cur, d, r, r⟩ =
      walkSeg cur (toVector (succDir d)) r ++
        iterGo ringNext f
          ⟨padd cur (pmul (toVector (succDir d)) (r : Int)), succDir d, r, r⟩ := by
  obtain ⟨m, rfl⟩ : ∃ m, r = m + 1 := ⟨r - 1, by omega⟩
  rw [show m + 1 + f = (m + f) + 1 by ring,
    iterGo_some (m + f) (ringNext_advance le_rfl hd)]
  rw [ring_walk m (padd cur (toVector (succDir d))) (succDir d) (m + 1) 1 f (by omega)]
  rw [walkSeg, padd_pmul_succ]
  push_cast
  simp

theorem ringList_eq_ringSegs (c : Pos) (r : Nat) (hr : 1 ≤ r) :
    ringList c r = ringSegs c r := by
  unfold ringList ringToList ringInit ringSegs
  rw [show 6 * r + 6 = r + (r + (r + (r + (r + (r + 6))))) by ring]
  rw [ring_walk r _ .Right r 0 _ (by omega)]
  rw [ring_seg_step (by decide) hr, ring_seg_step (by decide) hr,
    ring_seg_step (by decide) hr, ring_seg_step (by decide) hr,
    ring_seg_step (by decide) hr]
  simp only [succDir]
  rw [show (6 : Nat) = 5 + 1 by rfl,
    iterGo_none 5 (ringNext_stop (le_refl r))]
  simp only [toVector, padd, pmul, List.append_nil, List.append_assoc,
    Int.ofNat_eq_coe]
  norm_num

theorem ringSegs_length (c : Pos) (r : Nat) : (ringSegs c r).length = 6 * r := by
  simp [ringSegs, walkSeg_length]
  ring

theorem distance_of_mem_ringSegs {c p : Pos} {r : Nat} (h : p ∈ ringSegs c r) :
    distance c p = (r : Int) := by
  simp only [ringSegs, List.mem_append] at h
  rcases h with ((((h | h) | h) | h) | h) | h <;>
    · rw [mem_walkSeg] at h
      obtain ⟨i, hi, rfl⟩ := h
      simp only [distance, padd, pmul, nmax, nabs]
      split_ifs <;> omega

theorem ringList_zero (c : Pos) :
    ringList c 0 =
      [c, padd c (1, -1), padd c (1, -2), padd c (0, -2), padd c (-1, -1)] := by
  unfold ringList ringToList ringInit
  rw [show 6 * 0 + 6 = 5 + 1 from rfl,
    iterGo_some 5 (ringNext_advance (Nat.zero_le _) (by decide))]
  simp only [succDir]
  rw [show (5 : Nat) = 4 + 1 from rfl,
    iterGo_some 4 (ringNext_advance (Nat.zero_le _) (by decide))]
  simp only [succDir]
  rw [show (4 : Nat) = 3 + 1 from rfl,
    iterGo_some 3 (ringNext_advance (Nat.zero_le _) (by decide))]
  simp only [succDir]
  rw [show (3 : Nat) = 2 + 1 from rfl,
    iterGo_some 2 (ringNext_advance (Nat.zero_le _) (by decide))]
  simp only [succDir]
  rw [show (2 : Nat) = 1 + 1 from rfl,
    iterGo_some 1 (ringNext_advance (Nat.zero_le _) (by decide))]
  simp only [succDir]
  rw [show (1 : Nat) = 0 + 1 from rfl,
    iterGo_none 0 (ringNext_stop (Nat.zero_le _))]
  simp only [padd, pmul, toVector, Prod.ext_iff, List.cons.injEq, and_true]
  norm_num
  omega

/-- C3 (counterexample): `ring(0)` does not yield exactly one position —
the iterator emits five positions at radius zero. -/
theorem C3_counterexample : (ringList ((0 : Int), (0 : Int)) 0).length ≠ 1 := by
  decide

/-- C3 (amended): for every center and radius `r ≥ 1`, `ring(r)` yields
exactly `6r` positions, each at hex distance exactly `r` from the center,
starting at the center moved `r` steps DownLeft and walking `r` steps in
each direction in the fixed order Right, UpRight, UpLeft, Left, DownLeft,
DownRight; when `r = 0` it yields exactly five positions, the first being
the center itself (not one position as claimed). -/
theorem C3_ring_structure (c : Pos) (r : Nat) :
    (1 ≤ r →
      (ringList c r).length = 6 * r ∧
      (∀ p ∈ ringList c r, distance c p = (r : Int)) ∧
      (ringList c r).head? =
        some (padd c (pmul (toVector .DownLeft) (r : Int))) ∧
      ringList c r = ringSegs c r) ∧
    (r = 0 → (ringList c r).length = 5 ∧ (ringList c r).head? = some c) := by
  constructor
  · intro hr
    have hcf := ringList_eq_ringSegs c r hr
    refine ⟨by rw [hcf]; exact ringSegs_length c r, ?_, ?_, hcf⟩
    · intro p hp
      rw [hcf] at hp
      exact distance_of_mem_ringSegs hp
    · rw [hcf]
      obtain ⟨m, rfl⟩ : ∃ m, r = m + 1 := ⟨r - 1, by omega⟩
      simp only [ringSegs, walkSeg, List.cons_append, List.head?_cons,
        Option.some.injEq, padd, pmul, toVector, Prod.ext_iff]
      push_cast
      constructor <;> ring
  · intro hr
    subst hr
    rw [ringList_zero]
    constructor <;> rfl

theorem C3_ring_structure_witness :
    (ringList ((0 : Int), (0 : Int)) 1).length = 6 * 1 ∧
      (ringList ((0 : Int), (0 : Int)) 0).length = 5 :=
  ⟨((C3_ring_structure (0, 0) 1).1 (by decide)).1,
    ((C3_ring_structure (0, 0) 0).2 rfl).1⟩

theorem ringStep {s : RingState} (hg : GoodRing s) (hrem : ringRem s ≠ 0) :
    ∃ p s', ringNext s = some (p, s') ∧ GoodRing s' ∧ s'.radius = s.radius ∧
      ringRem s' + 1 = ringRem s := by
  obtain ⟨cur, d, r, i⟩ := s
  simp only [GoodRing] at hg
  obtain ⟨hi, hr⟩ := hg
  by_cases hir : r ≤ i
  · cases d <;> simp only [ringRem, dirRank] at hrem ⊢ <;>
      first
        | exact absurd (by omega) hrem
        | (refine ⟨cur, _, ringNext_advance hir (by decide), ⟨hr, hr⟩, rfl, ?_⟩;
            simp only [ringRem, dirRank, succDir]; omega)
  · refine ⟨cur, _, ringNext_lt (by omega),
      ⟨show i + 1 ≤ r by omega, hr⟩, rfl, ?_⟩
    cases d <;> simp only [ringRem, dirRank] <;> omega

theorem ringDone {s : RingState} (hg : GoodRing s) (h : ringRem s = 0) :
    ringNext s = none := by
  obtain ⟨cur, d, r, i⟩ := s
  simp only [GoodRing] at hg
  obtain ⟨hi, hr⟩ := hg
  cases d <;> simp only [ringRem, dirRank] at h <;>
    first
      | exact ringNext_stop (by omega)
      | exact absurd h (by omega)

theorem iterGo_ring_congr : ∀ (n : Nat) (s : RingState) (f₁ f₂ : Nat),
    GoodRing s → ringRem s = n → n + 1 ≤ f₁ → n + 1 ≤ f₂ →
    iterGo ringNext f₁ s = iterGo ringNext f₂ s := by
  intro n
  induction n with
  | zero =>
    intro s f₁ f₂ hg hrem h1 h2
    obtain ⟨a, rfl⟩ : ∃ a, f₁ = a + 1 := ⟨f₁ - 1, by omega⟩
    obtain ⟨b, rfl⟩ : ∃ b, f₂ = b + 1 := ⟨f₂ - 1, by omega⟩
    rw [iterGo_none a (ringDone hg hrem), iterGo_none b (ringDone hg hrem)]
  | succ n ih =>
    intro s f₁ f₂ hg hrem h1 h2
    obtain ⟨p, s', hns, hg', _, hr'⟩ := ringStep hg (by omega)
    obtain ⟨a, rfl⟩ : ∃ a, f₁ = a + 1 := ⟨f₁ - 1, by omega⟩
    obtain ⟨b, rfl⟩ : ∃ b, f₂ = b + 1 := ⟨f₂ - 1, by omega⟩
    rw [iterGo_some a hns, iterGo_some b hns,
      ih s' a b hg' (by omega) (by omega) (by omega)]

theorem goodRing_init (c : Pos) {r : Nat} (hr : 1 ≤ r) :
    GoodRing (ringInit c r) := ⟨Nat.zero_le _, hr⟩

theorem ringRem_init (c : Pos) (r : Nat) : ringRem (ringInit c r) = 6 * r := by
  simp [ringRem, ringInit, dirRank]

theorem ringList_eq_rem (c : Pos) {r : Nat} (hr : 1 ≤ r) :
    ringList c r = iterGo ringNext (6 * r + 1) (ringInit c r) := by
  unfold ringList ringToList
  exact iterGo_ring_congr (6 * r) _ _ _ (goodRing_init c hr) (ringRem_init c r)
    (by simp only [ringInit]; omega) (by omega)

theorem spiralNext_start (o : Pos) (s : RingState) (R : Nat) :
    spiralNext ⟨o, s, R, 0⟩ = some (o, ⟨o, s, R, 1⟩) := by
  simp [spiralNext]

theorem spiralNext_overflow {o : Pos} {s : RingState} {R k : Nat}
    (hk0 : k ≠ 0) (hkR : R < k) : spiralNext ⟨o, s, R, k⟩ = none := by
  simp [spiralNext, hk0, hkR]

theorem spiralNext_step {o : Pos} {s rs : RingState} {R k : Nat} {p : Pos}
    (hk0 : k ≠ 0) (hkR : k ≤ R) (h : ringNext s = some (p, rs)) :
    spiralNext ⟨o, s, R, k⟩ = some (p, ⟨o, rs, R, k⟩) := by
  simp [spiralNext, hk0, Nat.not_lt.2 hkR, h]

theorem spiralNext_newring {o : Pos} {s rs : RingState} {R k : Nat} {p : Pos}
    (hk0 : k ≠ 0) (hkR : k < R)
    (h : ringNext s = none) (h2 : ringNext (ringInit o (k + 1)) = some (p, rs)) :
    spiralNext ⟨o, s, R, k⟩ = some (p, ⟨o, rs, R, k + 1⟩) := by
  simp [spiralNext, hk0, Nat.not_lt.2 (le_of_lt hkR), h, hkR, h2]

theorem spiralNext_done {o : Pos} {s : RingState} {R : Nat}
    (hR0 : R ≠ 0) (h : ringNext s = none) :
    spiralNext ⟨o, s, R, R⟩ = none := by
  simp [spiralNext, hR0, h]

theorem sumSix_cons (a n : Nat) : sumSix a (n + 1) = 6 * a + sumSix (a + 1) n := by
  simp [sumSix, List.range']

theorem sumSix_shift : ∀ (n k : Nat), sumSix (k + 1) n = 3 * n * (n + 2 * k + 1) := by
  intro n
  induction n with
  | zero => intro k; simp [sumSix]
  | succ n ih =>
    intro k
    rw [sumSix_cons, ih (k + 1)]
    ring

theorem spiral_run : ∀ (fuel : Nat) (o : Pos) (s : RingState) (R k : Nat),
    GoodRing s → s.radius = k → 1 ≤ k → k ≤ R →
    ringRem s + sumSix (k + 1) (R - k) + 1 ≤ fuel →
    iterGo spiralNext fuel ⟨o, s, R, k⟩ =
      iterGo ringNext (ringRem s + 1) s ++
        (List.range' (k + 1) (R - k)).flatMap (ringList o) := by
  intro fuel
  induction fuel with
  | zero => intro o s R k _ _ _ _ hf; omega
  | succ fuel ih =>
    intro o s R k hg hrad hk1 hkR hf
    by_cases hrem : ringRem s = 0
    · have hnone : ringNext s = none := ringDone hg hrem
      rw [hrem, iterGo_none 0 hnone, List.nil_append]
      by_cases hlt : k < R
      · have hfresh : GoodRing (ringInit o (k + 1)) := goodRing_init o (by omega)
        obtain ⟨p, rs, hstep, hgrs, hradrs, hremrs⟩ :=
          ringStep hfresh (by rw [ringRem_init]; omega)
        rw [iterGo_some fuel (spiralNext_newring (by omega) hlt hnone hstep)]
        have hRk : R - k = (R - (k + 1)) + 1 := by omega
        rw [hRk, List.range']
        have hrem6 : ringRem rs + 1 = 6 * (k + 1) := by
          rw [hremrs, ringRem_init]
        rw [ih o rs R (k + 1) hgrs (by rw [hradrs]; simp [ringInit]) (by omega)
          (by omega) ?_]
        · rw [List.flatMap_cons, ← List.cons_append]
          congr 1
          rw [ringList_eq_rem o (by omega : 1 ≤ k + 1),
            iterGo_some (6 * (k + 1)) hstep]
          congr 1
          exact iterGo_ring_congr (ringRem rs) rs (ringRem rs + 1) (6 * (k + 1))
            hgrs rfl (by omega) (by omega)
        · rw [hrem, hRk, sumSix_cons] at hf
          omega
      · have hkR' : k = R := by omega
        subst hkR'
        rw [iterGo_none fuel (spiralNext_done (by omega) hnone)]
        simp [Nat.sub_self]
    · obtain ⟨p, s', hstep, hg', hrad', hrem'⟩ := ringStep hg hrem
      rw [iterGo_some fuel (spiralNext_step (by omega) hkR hstep)]
      rw [ih o s' R k hg' (by rw [hrad', hrad]) hk1 hkR (by omega)]
      obtain ⟨m, hm⟩ : ∃ m, ringRem s = m + 1 := ⟨ringRem s - 1, by omega⟩
      rw [hm, iterGo_some (m + 1) hstep]
      have hs' : ringRem s' = m := by omega
      rw [hs']
      simp

theorem spiralList_eq (c : Pos) (R : Nat) :
    spiralList c R = c :: (List.range' 1 R).flatMap (ringList c) := by
  show iterGo spiralNext (3 * R * R + 3 * R + 2) ⟨c, ringInit c 1, R, 0⟩ = _
  rw [show 3 * R * R + 3 * R + 2 = (3 * R * R + 3 * R + 1) + 1 from rfl,
    iterGo_some _ (spiralNext_start c (ringInit c 1) R)]
  cases R with
  | zero =>
    rw [show 3 * 0 * 0 + 3 * 0 + 1 = 0 + 1 from rfl,
      iterGo_none 0 (spiralNext_overflow one_ne_zero (by omega))]
    rfl
  | succ n =>
    rw [spiral_run (3 * (n + 1) * (n + 1) + 3 * (n + 1) + 1) c (ringInit c 1)
      (n + 1) 1 (goodRing_init c le_rfl) (by simp [ringInit]) le_rfl
      (by omega) ?_]
    · rw [ringRem_init, ← ringList_eq_rem c le_rfl,
        show (n + 1) - 1 = n from rfl,
        show List.range' 1 (n + 1) = 1 :: List.range' 2 n from rfl]
      simp
    · rw [ringRem_init, show (n + 1) - 1 = n from rfl,
        show (1 : Nat) + 1 = 1 + 1 from rfl]
      have hsum : sumSix (1 + 1) n = 3 * n * (n + 2 * 1 + 1) := sumSix_shift n 1
      rw [hsum]
      have hpoly : 6 * 1 + 3 * n * (n + 2 * 1 + 1) + 1 =
          3 * (n + 1) * (n + 1) + 3 * (n + 1) + 1 := by ring
      omega

/-- C7: for every center position and radius `r`, `spiral(r)` yields
exactly `1 + 3·r·(r+1)` positions: the center first, followed by the rings
of radius 1 up to `r` in increasing order of radius. -/
theorem C7_spiral (c : Pos) (R : Nat) :
    (spiralList c R).length = 1 + 3 * R * (R + 1) ∧
    spiralList c R = c :: (List.range' 1 R).flatMap (ringList c) := by
  refine ⟨?_, spiralList_eq c R⟩
  rw [spiralList_eq c R]
  simp only [List.length_cons]
  have hlen : ((List.range' 1 R).flatMap (ringList c)).length = sumSix 1 R := by
    rw [List.length_flatMap]
    unfold sumSix
    congr 1
    apply List.map_congr_left
    intro j hj
    show (ringList c j).length = 6 * j
    rw [ringList_eq_ringSegs c j (List.mem_range'_1.mp hj).1, ringSegs_length]
  have hsum : sumSix 1 R = 3 * R * (R + 0 + 1) := sumSix_shift R 0
  rw [hlen, hsum]
  ring

theorem distance_nonneg (p q : Pos) : 0 ≤ distance p q := by
  simp only [distance, nmax, nabs]
  split_ifs <;> omega

theorem floor_intCast_add_half (n : Int) : ⌊(n : ℚ) + 1 / 2⌋ = n := by
  rw [add_comm, Int.floor_add_int]
  norm_num

theorem roundQ_intCast (n : Int) : roundQ (n : ℚ) = n := by
  unfold roundQ
  split_ifs with h
  · rw [show -(n : ℚ) = ((-n : Int) : ℚ) by push_cast; ring,
      floor_intCast_add_half]
    ring
  · exact floor_intCast_add_half n

theorem axialRound_intCast (a b : Int) : axialRound ((a : ℚ), (b : ℚ)) = (a, b) := by
  have hs : roundQ (-(a : ℚ) - (b : ℚ)) = -a - b := by
    rw [show -(a : ℚ) - (b : ℚ) = ((-a - b : Int) : ℚ) by push_cast; ring]
    exact roundQ_intCast _
  simp only [axialRound, roundQ_intCast, hs]
  norm_num

theorem lineNext_done {p q : Pos} {m i : Nat} (h : i = m + 1) :
    lineNext ⟨p, q, m, i⟩ = none := by
  simp [lineNext, h]

theorem lineNext_self {p : Pos} {m i : Nat} (h : ¬ i = m + 1) :
    lineNext ⟨p, p, m, i⟩ = some (p, ⟨p, p, m, i + 1⟩) := by
  simp [lineNext, h]

theorem lineNext_emit {p q : Pos} {m i : Nat} (hne : p ≠ q) (h : ¬ i = m + 1) :
    lineNext ⟨p, q, m, i⟩ = some (lineSample p q m i, ⟨p, q, m, i + 1⟩) := by
  simp [lineNext, h, hne]

theorem line_run : ∀ (n : Nat) (p q : Pos) (m i : Nat), i + n = m + 1 → p ≠ q →
    iterGo lineNext (n + 1) ⟨p, q, m, i⟩ =
      (List.range' i n).map (lineSample p q m) := by
  intro n
  induction n with
  | zero =>
    intro p q m i h hne
    rw [iterGo_none 0 (lineNext_done (by omega))]
    rfl
  | succ n ih =>
    intro p q m i h hne
    rw [iterGo_some (n + 1) (lineNext_emit hne (by omega)),
      ih p q m (i + 1) (by omega) hne]
    rfl

theorem lineList_eq_map {p q : Pos} (h : p ≠ q) :
    lineList p q = (List.range ((distance p q).toNat + 1)).map
      (lineSample p q (distance p q).toNat) := by
  unfold lineList lineInit
  rw [show (distance p q).toNat + 2 = ((distance p q).toNat + 1) + 1 from rfl,
    line_run ((distance p q).toNat + 1) p q _ 0 (by omega) h,
    List.range_eq_range']

theorem lineList_self (p : Pos) : lineList p p = [p] := by
  unfold lineList lineInit
  rw [distance_self, Int.toNat_zero]
  rw [show (0 + 2 : Nat) = 1 + 1 from rfl,
    iterGo_some 1 (lineNext_self (by omega)),
    iterGo_none 0 (lineNext_done rfl)]

theorem lineSample_zero (p q : Pos) (m : Nat) : lineSample p q m 0 = p := by
  unfold lineSample lerpQ
  norm_num
  rw [axialRound_intCast]

theorem lineSample_last (p q : Pos) {m : Nat} (hm : m ≠ 0) :
    lineSample p q m m = q := by
  unfold lineSample lerpQ
  rw [div_self (by exact_mod_cast hm : ((m : ℚ) ≠ 0))]
  norm_num
  rw [show (q.1 : ℚ) = ((q.1 : Int) : ℚ) from rfl,
    show (q.2 : ℚ) = ((q.2 : Int) : ℚ) from rfl, axialRound_intCast]

theorem distance_toNat_pos {p q : Pos} (h : p ≠ q) :
    1 ≤ (distance p q).toNat := by
  have h0 := distance_nonneg p q
  have h1 : distance p q ≠ 0 := fun hc => h (distance_eq_zero_iff.mp hc)
  omega

theorem lineList_head (p q : Pos) : (lineList p q).head? = some p := by
  by_cases hpq : p = q
  · rw [hpq, lineList_self]
    rfl
  · rw [lineList_eq_map hpq, List.range_succ_eq_map]
    simp [lineSample_zero]

theorem lineList_getLast (p q : Pos) : (lineList p q).getLast? = some q := by
  by_cases hpq : p = q
  · rw [hpq, lineList_self]
    rfl
  · rw [lineList_eq_map hpq, List.range_succ, List.map_append,
      show List.map (lineSample p q (distance p q).toNat)
          [(distance p q).toNat] =
        [lineSample p q (distance p q).toNat (distance p q).toNat] from rfl,
      List.getLast?_concat,
      lineSample_last p q (by have := distance_toNat_pos hpq; omega)]

theorem lineList_length (p q : Pos) :
    (lineList p q).length = (distance p q).toNat + 1 := by
  by_cases hpq : p = q
  · rw [hpq, lineList_self, distance_self]
    rfl
  · rw [lineList_eq_map hpq]
    simp

/-- C8: for all positions `p` and `q`, `p.line_to(q)` yields exactly
`distance(p,q)+1` positions, the first equal to `p` and the last equal to
`q`, each obtained by linearly interpolating `(q,r)` at `t = i/max_index`
and axial-rounding the sample; the degenerate `p.line_to(p)` yields exactly
`[p]` without dividing by the zero distance. -/
theorem C8_line_to (p q : Pos) :
    (lineList p q).length = (distance p q).toNat + 1 ∧
    (lineList p q).head? = some p ∧
    (lineList p q).getLast? = some q ∧
    (p ≠ q → lineList p q = (List.range ((distance p q).toNat + 1)).map
      (lineSample p q (distance p q).toNat)) ∧
    (p = q → lineList p q = [p]) :=
  ⟨lineList_length p q, lineList_head p q, lineList_getLast p q,
    fun h => lineList_eq_map h, fun h => by rw [h, lineList_self]⟩

theorem C8_line_to_witness :
    (lineList ((0 : Int), (0 : Int)) ((2 : Int), (0 : Int))).length =
        (distance ((0 : Int), (0 : Int)) ((2 : Int), (0 : Int))).toNat + 1 ∧
      lineList ((0 : Int), (0 : Int)) ((0 : Int), (0 : Int)) = [(0, 0)] :=
  ⟨(C8_line_to (0, 0) (2, 0)).1, (C8_line_to (0, 0) (0, 0)).2.2.2.2 rfl⟩

theorem fovVisible_iff {L : Layer} {center p : Pos} {range : Option Nat} :
    fovVisible L center range p = true ↔
      (∀ k, range = some k → distance p center ≤ (k : Int)) ∧
      (∀ pb ∈ lineList center p,
        (layGet L pb).isSome ∧ layGet L pb ≠ some true) := by
  unfold fovVisible layContains
  cases range with
  | none =>
    simp [List.all_eq_true, Bool.and_eq_true, beq_eq_false_iff_ne]
  | some radius =>
    simp only [Bool.and_eq_true, Bool.not_eq_true', decide_eq_false_iff_not,
      not_lt, List.all_eq_true, beq_eq_false_iff_ne, Option.some.injEq,
      forall_eq']

theorem mem_fieldOfView {L : Layer} {center p : Pos} {range : Option Nat} :
    p ∈ fieldOfView L center range ↔
      p ∈ L.map Prod.fst ∧
      (∀ k, range = some k → distance p center ≤ (k : Int)) ∧
      (∀ pb ∈ lineList center p,
        (layGet L pb).isSome ∧ layGet L pb ≠ some true) := by
  unfold fieldOfView
  rw [List.mem_filter, fovVisible_iff]

/-- C5: for every boolean layer, `field_of_view(center, range)` returns
exactly the member positions `p` such that (a) when `range` is `Some(k)`,
`distance(p, center) ≤ k`, and (b) every position on the interpolated line
from `center` to `p` is a member of the layer and not marked blocked
(`true`). -/
theorem C5_field_of_view_characterization (L : Layer) (center : Pos)
    (range : Option Nat) (p : Pos) :
    p ∈ fieldOfView L center range ↔
      p ∈ L.map Prod.fst ∧
      (∀ k, range = some k → distance p center ≤ (k : Int)) ∧
      (∀ pb ∈ lineList center p,
        (layGet L pb).isSome ∧ layGet L pb ≠ some true) :=
  mem_fieldOfView

/-- C10: for every boolean layer, a position whose own stored value is
`true` is never in the result of `field_of_view` (the target cell itself is
part of the line check); consequently, when the center position is absent
from the layer or marked blocked, `field_of_view(center, range)` returns
the empty set for every range. -/
theorem C10_blocked_never_visible (L : Layer) (center p : Pos)
    (range : Option Nat) :
    (layGet L p = some true → p ∉ fieldOfView L center range) ∧
    ((layGet L center = none ∨ layGet L center = some true) →
      fieldOfView L center range = []) := by
  constructor
  · intro hp hmem
    obtain ⟨-, -, hline⟩ := mem_fieldOfView.mp hmem
    obtain ⟨-, hne⟩ :=
      hline p (List.mem_of_mem_getLast? (lineList_getLast center p))
    exact hne hp
  · intro hc
    apply List.filter_eq_nil_iff.mpr
    intro a ha
    rw [fovVisible_iff]
    rintro ⟨-, hline⟩
    obtain ⟨hsome, hne⟩ :=
      hline center (List.mem_of_mem_head? (lineList_head center a))
    rcases hc with hc | hc
    · rw [hc] at hsome
      simp at hsome
    · exact hne hc

theorem C10_blocked_never_visible_witness :
    fieldOfView [(((0 : Int), (0 : Int)), true)] (0, 0) none = [] :=
  (C10_blocked_never_visible [((0, 0), true)] (0, 0) (0, 0) none).2
    (Or.inr rfl)

theorem mem_neighborsUnblocked {L : Layer} {p q : Pos} :
    q ∈ neighborsUnblocked L p ↔ q ∈ neighbors p ∧ layGet L q = some false := by
  unfold neighborsUnblocked
  rw [List.mem_filter]
  constructor
  · rintro ⟨h1, h2⟩
    refine ⟨h1, ?_⟩
    cases hx : layGet L q with
    | none => rw [hx] at h2; simp at h2
    | some b =>
      cases b
      · rfl
      · rw [hx] at h2; simp at h2
  · rintro ⟨h1, h2⟩
    rw [h2]
    exact ⟨h1, rfl⟩

theorem mem_addNbrs_fst {q : Pos} :
    ∀ (nbrs visited toAdd : List Pos),
      q ∈ (addNbrs visited toAdd nbrs).1 ↔ q ∈ visited ∨ q ∈ nbrs := by
  intro nbrs
  induction nbrs with
  | nil => intro v t; simp [addNbrs]
  | cons nb rest ih =>
    intro v t
    by_cases hnb : nb ∈ v
    · rw [show addNbrs v t (nb :: rest) = addNbrs v t rest by
        simp [addNbrs, hnb], ih]
      simp only [List.mem_cons]
      constructor
      · rintro (h | h)
        · exact Or.inl h
        · exact Or.inr (Or.inr h)
      · rintro (h | rfl | h)
        · exact Or.inl h
        · exact Or.inl hnb
        · exact Or.inr h
    · rw [show addNbrs v t (nb :: rest) = addNbrs (v ++ [nb]) (t ++ [nb]) rest by
        simp [addNbrs, hnb], ih]
      simp only [List.mem_append, List.mem_singleton, List.mem_cons]
      tauto

theorem mem_addNbrs_snd {q : Pos} :
    ∀ (nbrs visited toAdd : List Pos),
      q ∈ (addNbrs visited toAdd nbrs).2 ↔
        q ∈ toAdd ∨ (q ∈ nbrs ∧ q ∉ visited) := by
  intro nbrs
  induction nbrs with
  | nil => intro v t; simp [addNbrs]
  | cons nb rest ih =>
    intro v t
    by_cases hnb : nb ∈ v
    · rw [show addNbrs v t (nb :: rest) = addNbrs v t rest by
        simp [addNbrs, hnb], ih]
      simp only [List.mem_cons]
      constructor
      · rintro (h | h)
        · exact Or.inl h
        · exact Or.inr ⟨Or.inr h.1, h.2⟩
      · rintro (h | ⟨rfl | h, hv⟩)
        · exact Or.inl h
        · exact absurd hnb hv
        · exact Or.inr ⟨h, hv⟩
    · rw [show addNbrs v t (nb :: rest) = addNbrs (v ++ [nb]) (t ++ [nb]) rest by
        simp [addNbrs, hnb], ih]
      simp only [List.mem_append, List.mem_singleton, List.mem_cons]
      by_cases hq : q = nb <;> subst_eqs <;> tauto

theorem mem_expandFringe_fst {L : Layer} {q : Pos} :
    ∀ (fringe visited toAdd : List Pos),
      q ∈ (expandFringe L visited toAdd fringe).1 ↔
        q ∈ visited ∨ ∃ p ∈ fringe, q ∈ neighborsUnblocked L p := by
  intro fringe
  induction fringe with
  | nil => intro v t; simp [expandFringe]
  | cons p rest ih =>
    intro v t
    rw [show expandFringe L v t (p :: rest) =
        expandFringe L (addNbrs v t (neighborsUnblocked L p)).1
          (addNbrs v t (neighborsUnblocked L p)).2 rest from rfl, ih]
    simp only [mem_addNbrs_fst, List.mem_cons]
    constructor
    · rintro ((h | h) | ⟨x, hx, hq⟩)
      · exact Or.inl h
      · exact Or.inr ⟨p, Or.inl rfl, h⟩
      · exact Or.inr ⟨x, Or.inr hx, hq⟩
    · rintro (h | ⟨x, rfl | hx, hq⟩)
      · exact Or.inl (Or.inl h)
      · exact Or.inl (Or.inr hq)
      · exact Or.inr ⟨x, hx, hq⟩

theorem mem_expandFringe_snd {L : Layer} {q : Pos} :
    ∀ (fringe visited toAdd : List Pos),
      q ∈ (expandFringe L visited toAdd fringe).2 ↔
        q ∈ toAdd ∨ ((∃ p ∈ fringe, q ∈ neighborsUnblocked L p) ∧ q ∉ visited) := by
  intro fringe
  induction fringe with
  | nil => intro v t; simp [expandFringe]
  | cons p rest ih =>
    intro v t
    rw [show expandFringe L v t (p :: rest) =
        expandFringe L (addNbrs v t (neighborsUnblocked L p)).1
          (addNbrs v t (neighborsUnblocked L p)).2 rest from rfl, ih]
    simp only [mem_addNbrs_fst, mem_addNbrs_snd, List.mem_cons]
    constructor
    · rintro ((h | h) | ⟨⟨x, hx, hq⟩, hv⟩)
      · exact Or.inl h
      · exact Or.inr ⟨⟨p, Or.inl rfl, h.1⟩, h.2⟩
      · exact Or.inr ⟨⟨x, Or.inr hx, hq⟩, fun hc => hv (Or.inl hc)⟩
    · rintro (h | ⟨⟨x, rfl | hx, hq⟩, hv⟩)
      · exact Or.inl (Or.inl h)
      · exact Or.inl (Or.inr ⟨hq, hv⟩)
      · by_cases hnb : q ∈ neighborsUnblocked L x
        case neg => exact absurd hq hnb
        by_cases hp : q ∈ neighborsUnblocked L p
        · exact Or.inl (Or.inr ⟨hp, hv⟩)
        · exact Or.inr ⟨⟨x, hx, hq⟩, fun hc => hc.elim hv hp⟩

theorem reachWithin_mono {L : Layer} {src q : Pos} {i j : Nat} (hij : i ≤ j)
    (h : ReachWithin L src i q) : ReachWithin L src j q := by
  induction j with
  | zero =>
    have : i = 0 := by omega
    subst this
    exact h
  | succ j ih =>
    by_cases hj : i = j + 1
    · subst hj
      exact h
    · exact Or.inl (ih (by omega))

theorem fomLoop_mem {L : Layer} {src : Pos} :
    ∀ (k : Nat) (v f : List Pos) (j : Nat),
      (∀ q, q ∈ v ↔ ReachWithin L src j q) →
      (∀ q, q ∈ f ↔
        (ReachWithin L src j q ∧ ∀ i < j, ¬ ReachWithin L src i q)) →
      ∀ q, q ∈ fomLoop L k v f ↔ ReachWithin L src (j + k) q := by
  intro k
  induction k with
  | zero =>
    intro v f j hv _ q
    rw [show fomLoop L 0 v f = v from rfl, Nat.add_zero]
    exact hv q
  | succ k ih =>
    intro v f j hv hf q
    rw [show fomLoop L (k + 1) v f =
        fomLoop L k (expandFringe L v [] f).1 (expandFringe L v [] f).2 from rfl]
    have hstep : ∀ x, (∃ p, (ReachWithin L src j p ∧ ∀ i < j, ¬ ReachWithin L src i p) ∧
        x ∈ neighborsUnblocked L p) ∨ ReachWithin L src j x ↔
        ReachWithin L src (j + 1) x := by
      intro x
      constructor
      · rintro (⟨p, ⟨hp, -⟩, hx⟩ | h)
        · obtain ⟨hnb, hget⟩ := mem_neighborsUnblocked.mp hx
          exact Or.inr ⟨p, hp, hnb, hget⟩
        · exact Or.inl h
      · rintro (h | ⟨p, hp, hnb, hget⟩)
        · exact Or.inr h
        · by_cases hfr : ∀ i < j, ¬ ReachWithin L src i p
          · exact Or.inl ⟨p, ⟨hp, hfr⟩,
              mem_neighborsUnblocked.mpr ⟨hnb, hget⟩⟩
          · push_neg at hfr
            obtain ⟨i, hij, hip⟩ := hfr
            right
            apply reachWithin_mono (show i + 1 ≤ j by omega)
            exact Or.inr ⟨p, hip, hnb, hget⟩
    have hv' : ∀ x, x ∈ (expandFringe L v [] f).1 ↔ ReachWithin L src (j + 1) x := by
      intro x
      rw [mem_expandFringe_fst]
      rw [← hstep x]
      constructor
      · rintro (h | ⟨p, hp, hx⟩)
        · exact Or.inr ((hv x).mp h)
        · exact Or.inl ⟨p, (hf p).mp hp, hx⟩
      · rintro (⟨p, hp, hx⟩ | h)
        · exact Or.inr ⟨p, (hf p).mpr hp, hx⟩
        · exact Or.inl ((hv x).mpr h)
    have hf' : ∀ x, x ∈ (expandFringe L v [] f).2 ↔
        (ReachWithin L src (j + 1) x ∧ ∀ i < j + 1, ¬ ReachWithin L src i x) := by
      intro x
      rw [mem_expandFringe_snd]
      simp only [List.not_mem_nil, false_or]
      constructor
      · rintro ⟨⟨p, hp, hx⟩, hvx⟩
        have hj1 : ReachWithin L src (j + 1) x :=
          (hstep x).mp (Or.inl ⟨p, (hf p).mp hp, hx⟩)
        refine ⟨hj1, fun i hi hc => hvx ((hv x).mpr ?_)⟩
        exact reachWithin_mono (show i ≤ j by omega) hc
      · rintro ⟨h1, h2⟩
        have hnj : ¬ ReachWithin L src j x := h2 j (by omega)
        have := (hstep x).mpr h1
        rcases this with ⟨p, hp, hx⟩ | h
        · exact ⟨⟨p, (hf p).mpr hp, hx⟩, fun hc => hnj ((hv x).mp hc)⟩
        · exact absurd h hnj
    have hres := ih (expandFringe L v [] f).1 (expandFringe L v [] f).2 (j + 1)
      hv' hf' q
    rw [show j + 1 + k = j + (k + 1) by omega] at hres
    exact hres

theorem mem_fieldOfMove {L : Layer} {src q : Pos} {range : Nat} :
    q ∈ fieldOfMove L src range ↔ ReachWithin L src range q := by
  unfold fieldOfMove
  have h := @fomLoop_mem L src range [src] [src] 0
    (fun x => by simp [ReachWithin, eq_comm])
    (fun x => by simp [ReachWithin, eq_comm]) q
  rw [Nat.zero_add] at h
  exact h

/-- C6: for every boolean layer, `field_of_move(pos, range)` returns the
set of all positions reachable from `pos` in at most `range` hops, where a
hop goes to a geometric neighbor that is a member of the layer with value
`false` (absence treated as blocked), inclusive of `pos`; on a fully open
range-3 layer centered at `pos`, `field_of_move(pos, 2)` returns exactly
19 positions, and with `(0,1)`, `(1,0)`, `(0,-2)` blocked it returns
exactly 13. -/
theorem C6_field_of_move (L : Layer) (src q : Pos) (range : Nat) :
    (q ∈ fieldOfMove L src range ↔ ReachWithin L src range q) ∧
    (fieldOfMove (newFromRange 3 (0, 0)) (0, 0) 2).length = 19 ∧
    (fieldOfMove (newFromRange 3 (0, 0)) (0, 0) 2).Nodup ∧
    (fieldOfMove fomBlockedLayer (0, 0) 2).length = 13 ∧
    (fieldOfMove fomBlockedLayer (0, 0) 2).Nodup :=
  ⟨mem_fieldOfMove, by decide, by decide, by decide, by decide⟩

/-- C9: for every boolean layer, position and range, the set returned by
`field_of_move(pos, range)` contains `pos` itself, even when `pos` is
absent from the layer or marked blocked. -/
theorem C9_field_of_move_contains_start (L : Layer) (pos : Pos) (range : Nat) :
    pos ∈ fieldOfMove L pos range :=
  mem_fieldOfMove.mpr (reachWithin_mono (Nat.zero_le range) rfl)

theorem alistGet_eq_none_iff {β : Type} {l : List (Pos × β)} {p : Pos} :
    alistGet l p = none ↔ p ∉ l.map Prod.fst := by
  induction l with
  | nil => simp [alistGet]
  | cons e rest ih =>
    obtain ⟨k, v⟩ := e
    rw [alistGet]
    by_cases hk : k = p
    · subst hk
      simp
    · have hpk : p ≠ k := fun h => hk h.symm
      rw [if_neg hk, ih]
      simp [List.mem_cons, hpk]

theorem alistInsert_of_get_none {β : Type} {l : List (Pos × β)} {p : Pos}
    {v : β} (h : alistGet l p = none) : alistInsert l p v = l ++ [(p, v)] := by
  induction l with
  | nil => rfl
  | cons e rest ih =>
    obtain ⟨k, w⟩ := e
    by_cases hk : k = p
    · rw [alistGet, if_pos hk] at h
      exact absurd h (by simp)
    · rw [alistGet, if_neg hk] at h
      rw [alistInsert, if_neg hk, ih h]
      rfl

theorem layGet_mem_keys {L : Layer} {p : Pos} {v : Bool}
    (h : layGet L p = some v) : p ∈ L.map Prod.fst := by
  induction L with
  | nil => simp [layGet] at h
  | cons e rest ih =>
    obtain ⟨k, w⟩ := e
    by_cases hk : k = p
    · simp [hk]
    · rw [layGet, if_neg hk] at h
      simp [ih h]

theorem pqPop_eq_none_iff {l : List (Pos × Int)} : pqPop l = none ↔ l = [] := by
  cases l with
  | nil => simp [pqPop]
  | cons x rest =>
    simp only [pqPop]
    cases pqPop rest with
    | none => simp
    | some m =>
      obtain ⟨mx, rtail⟩ := m
      by_cases h : mx.2 > x.2 <;> simp [h]

theorem pqPop_spec : ∀ {l : List (Pos × Int)} {x : Pos × Int}
    {rest : List (Pos × Int)}, pqPop l = some (x, rest) →
    x ∈ l ∧ rest.length + 1 = l.length ∧ ∀ y ∈ rest, y ∈ l := by
  intro l
  induction l with
  | nil => intro x rest h; simp [pqPop] at h
  | cons a tail ih =>
    intro x rest h
    rw [pqPop] at h
    cases hp : pqPop tail with
    | none =>
      rw [hp] at h
      have htail : tail = [] := pqPop_eq_none_iff.mp hp
      simp only [Option.some.injEq, Prod.mk.injEq] at h
      obtain ⟨rfl, rfl⟩ := h
      subst htail
      exact ⟨List.mem_singleton_self a, rfl, by simp⟩
    | some m =>
      obtain ⟨mx, rtail⟩ := m
      obtain ⟨hmem, hlen, hsub⟩ := ih hp
      rw [hp] at h
      by_cases hgt : mx.2 > a.2
      · simp only [hgt, if_true, Option.some.injEq, Prod.mk.injEq] at h
        obtain ⟨rfl, rfl⟩ := h
        refine ⟨List.mem_cons_of_mem a hmem, by simp [← hlen], ?_⟩
        intro y hy
        rcases List.mem_cons.mp hy with rfl | hy
        · exact List.mem_cons_self _ _
        · exact List.mem_cons_of_mem a (hsub y hy)
      · simp only [hgt, if_false, Option.some.injEq, Prod.mk.injEq] at h
        obtain ⟨rfl, rfl⟩ := h
        exact ⟨List.mem_cons_self _ _, rfl, fun y hy => List.mem_cons_of_mem _ hy⟩

theorem cameFrom_length_le {L : Layer} {src : Pos} {st : AStarState}
    (h : AInv L src st) : st.cameFrom.length ≤ L.length + 1 := by
  have h2 : ∀ k ∈ st.cameFrom.map Prod.fst, k ∈ src :: L.map Prod.fst := by
    intro k hk
    obtain ⟨e, he, rfl⟩ := List.mem_map.mp hk
    rcases h.keys_ok e he with hs | hs
    · rw [hs]
      exact List.mem_cons_self _ _
    · exact List.mem_cons_of_mem _ (layGet_mem_keys hs)
  calc st.cameFrom.length
      = (st.cameFrom.map Prod.fst).length := by simp
    _ = (st.cameFrom.map Prod.fst).toFinset.card :=
        (List.toFinset_card_of_nodup h.nodup).symm
    _ ≤ (src :: L.map Prod.fst).toFinset.card := by
        apply Finset.card_le_card
        intro x hx
        rw [List.mem_toFinset] at hx ⊢
        exact h2 x hx
    _ ≤ (src :: L.map Prod.fst).length := List.toFinset_card_le _
    _ = L.length + 1 := by simp

theorem astar_insert {L : Layer} {src current nb : Pos} {st : AStarState}
    (hinv : AInv L src st) (hre : Reach L src current)
    (hnb : nb ∈ neighborsUnblocked L current)
    (hnew : ¬ (alistGet st.cameFrom nb).isSome = true)
    (pr : Int) (cost' : List (Pos × Int)) :
    AInv L src ⟨st.frontier ++ [(nb, pr)],
      alistInsert st.cameFrom nb (some current), cost'⟩ ∧
    astarMeasure L ⟨st.frontier ++ [(nb, pr)],
      alistInsert st.cameFrom nb (some current), cost'⟩ = astarMeasure L st := by
  have hnone : alistGet st.cameFrom nb = none := by
    cases hx : alistGet st.cameFrom nb with
    | none => rfl
    | some w => rw [hx] at hnew; simp at hnew
  have hnotmem : nb ∉ st.cameFrom.map Prod.fst := alistGet_eq_none_iff.mp hnone
  have hreachnb : Reach L src nb := Relation.ReflTransGen.tail hre hnb
  have hinv' : AInv L src ⟨st.frontier ++ [(nb, pr)],
      alistInsert st.cameFrom nb (some current), cost'⟩ := by
    rw [alistInsert_of_get_none hnone]
    constructor
    · show ((st.cameFrom ++ [(nb, some current)]).map Prod.fst).Nodup
      rw [List.map_append]
      rw [List.nodup_append]
      refine ⟨hinv.nodup, List.nodup_singleton _, ?_⟩
      intro a ha hb
      simp only [List.map_cons, List.map_nil, List.mem_singleton] at hb
      rw [hb] at ha
      exact hnotmem ha
    · intro e he
      rcases List.mem_append.mp he with he | he
      · exact hinv.keys_ok e he
      · rw [List.mem_singleton.mp he]
        exact Or.inr (mem_neighborsUnblocked.mp hnb).2
    · intro e he
      rcases List.mem_append.mp he with he | he
      · exact hinv.reach e he
      · rw [List.mem_singleton.mp he]
        exact hreachnb
    · intro e he
      rcases List.mem_append.mp he with he | he
      · exact hinv.frontier_reach e he
      · rw [List.mem_singleton.mp he]
        exact hreachnb
  refine ⟨hinv', ?_⟩
  have hlen := cameFrom_length_le hinv'
  rw [alistInsert_of_get_none hnone] at hlen ⊢
  simp only [astarMeasure, List.length_append, List.length_singleton] at hlen ⊢
  omega

theorem processNeighbors_spec {L : Layer} {src to_ current : Pos} :
    ∀ (nbrs : List Pos) (st : AStarState),
      AInv L src st →
      (∀ nb ∈ nbrs, nb ∈ neighborsUnblocked L current) →
      Reach L src current →
      AInv L src (processNeighbors to_ current nbrs st) ∧
      astarMeasure L (processNeighbors to_ current nbrs st) =
        astarMeasure L st := by
  intro nbrs
  induction nbrs with
  | nil => intro st hinv _ _; exact ⟨hinv, rfl⟩
  | cons nb rest ih =>
    intro st hinv hnb hre
    have hrest : ∀ x ∈ rest, x ∈ neighborsUnblocked L current :=
      fun x hx => hnb x (List.mem_cons_of_mem nb hx)
    have hnbm : nb ∈ neighborsUnblocked L current := hnb nb (List.mem_cons_self _ _)
    by_cases h1 : (alistGet st.cameFrom nb).isSome = true
    · rw [show processNeighbors to_ current (nb :: rest) st =
          processNeighbors to_ current rest st by
        rw [processNeighbors, if_pos h1]]
      exact ih st hinv hrest hre
    · cases hc : alistGet st.costSoFar current with
      | none =>
        rw [show processNeighbors to_ current (nb :: rest) st =
            processNeighbors to_ current rest st by
          rw [processNeighbors, if_neg h1]
          simp only [hc]]
        exact ih st hinv hrest hre
      | some c =>
        cases hb : alistGet st.costSoFar nb with
        | none =>
          rw [show processNeighbors to_ current (nb :: rest) st =
              processNeighbors to_ current rest
                ⟨st.frontier ++ [(nb, -(c + 1) - distance nb to_)],
                 alistInsert st.cameFrom nb (some current),
                 alistInsert st.costSoFar nb (c + 1)⟩ by
            rw [processNeighbors, if_neg h1]
            simp only [hc, hb, if_true]]
          obtain ⟨hinv2, hm2⟩ := astar_insert hinv hre hnbm h1
            (-(c + 1) - distance nb to_) (alistInsert st.costSoFar nb (c + 1))
          obtain ⟨hinv3, hm3⟩ := ih _ hinv2 hrest hre
          exact ⟨hinv3, by rw [hm3, hm2]⟩
        | some old =>
          by_cases hlt : c + 1 < old
          · rw [show processNeighbors to_ current (nb :: rest) st =
                processNeighbors to_ current rest
                  ⟨st.frontier ++ [(nb, -(c + 1) - distance nb to_)],
                   alistInsert st.cameFrom nb (some current),
                   alistInsert st.costSoFar nb (c + 1)⟩ by
              rw [processNeighbors, if_neg h1]
              simp [hc, hb, hlt]]
            obtain ⟨hinv2, hm2⟩ := astar_insert hinv hre hnbm h1
              (-(c + 1) - distance nb to_) (alistInsert st.costSoFar nb (c + 1))
            obtain ⟨hinv3, hm3⟩ := ih _ hinv2 hrest hre
            exact ⟨hinv3, by rw [hm3, hm2]⟩
          · rw [show processNeighbors to_ current (nb :: rest) st =
                processNeighbors to_ current rest st by
              rw [processNeighbors, if_neg h1]
              simp [hc, hb, hlt]]
            exact ih st hinv hrest hre

theorem astarLoop_some {L : Layer} {src to_ : Pos} :
    ∀ (fuel : Nat) (st : AStarState), AInv L src st →
      astarMeasure L st + 1 ≤ fuel →
      ∃ st', astarLoop L to_ fuel st = some st' ∧ AInv L src st' := by
  intro fuel
  induction fuel with
  | zero => intro st _ hm; omega
  | succ fuel ih =>
    intro st hinv hm
    cases hp : pqPop st.frontier with
    | none =>
      refine ⟨st, ?_, hinv⟩
      rw [astarLoop]
      simp only [hp]
    | some x =>
      obtain ⟨⟨current, pr⟩, frontier'⟩ := x
      obtain ⟨hmem, hlen, hsub⟩ := pqPop_spec hp
      have hrec : Reach L src current := hinv.frontier_reach _ hmem
      by_cases hct : current = to_
      · refine ⟨⟨frontier', st.cameFrom, st.costSoFar⟩, ?_, ?_⟩
        · rw [astarLoop]
          simp only [hp, hct, if_true]
        · exact ⟨hinv.nodup, hinv.keys_ok, hinv.reach,
            fun e he => hinv.frontier_reach e (hsub e he)⟩
      · have hinv1 : AInv L src ⟨frontier', st.cameFrom, st.costSoFar⟩ :=
          ⟨hinv.nodup, hinv.keys_ok, hinv.reach,
            fun e he => hinv.frontier_reach e (hsub e he)⟩
        obtain ⟨hinv2, hm2⟩ := @processNeighbors_spec L src to_ current
          (neighborsUnblocked L current) ⟨frontier', st.cameFrom, st.costSoFar⟩
          hinv1 (fun nb hx => hx) hrec
        have hm1 : astarMeasure L ⟨frontier', st.cameFrom, st.costSoFar⟩ + 1 =
            astarMeasure L st := by
          simp only [astarMeasure] at *
          omega
        obtain ⟨st', heq, hinv'⟩ := ih _ hinv2 (by omega)
        refine ⟨st', ?_, hinv'⟩
        rw [astarLoop]
        simp only [hp, hct, if_false]
        exact heq

theorem backWalk_of_get_none {cf : List (Pos × Option Pos)} {p : Pos}
    {fuel : Nat} {path : List Pos} (h : alistGet cf p = none) :
    backWalk cf fuel path p = path := by
  cases fuel with
  | zero => rfl
  | succ fuel =>
    rw [backWalk]
    simp only [h]

/-- C4: for every boolean layer with `from` and `to` both members and `to`
unreachable from `from` through unblocked member cells, `pathfinding`
exhausts the frontier and returns exactly the one-element vector `[to]`;
no explicit no-path signal is produced. -/
theorem C4_pathfinding_unreachable (L : Layer) (from_ to_ : Pos)
    (hf : layContains L from_ = true) (ht : layContains L to_ = true)
    (hur : ¬ Reach L from_ to_) :
    pathfinding L from_ to_ = .path [to_] := by
  have hne : from_ ≠ to_ := fun h => hur (h ▸ Relation.ReflTransGen.refl)
  unfold pathfinding
  rw [if_neg hne, if_neg (by simp [hf, ht])]
  have hinv0 : AInv L from_ ⟨[(from_, 0)], [(from_, none)], [(from_, 0)]⟩ := by
    refine ⟨by simp, ?_, ?_, ?_⟩
    · intro e he
      rw [List.mem_singleton.mp he]
      exact Or.inl rfl
    · intro e he
      rw [List.mem_singleton.mp he]
      exact Relation.ReflTransGen.refl
    · intro e he
      rw [List.mem_singleton.mp he]
      exact Relation.ReflTransGen.refl
  have hm0 : astarMeasure L ⟨[(from_, 0)], [(from_, none)], [(from_, 0)]⟩ + 1 ≤
      L.length + 2 := by
    simp only [astarMeasure, List.length_singleton]
    omega
  obtain ⟨st', heq, hinv'⟩ := @astarLoop_some L from_ to_ (L.length + 2) _ hinv0 hm0
  rw [heq]
  have hto : alistGet st'.cameFrom to_ = none := by
    rw [alistGet_eq_none_iff]
    intro hmem
    obtain ⟨e, he, hkey⟩ := List.mem_map.mp hmem
    exact hur (hkey ▸ hinv'.reach e he)
  show PathResult.path
    ((backWalk st'.cameFrom (st'.cameFrom.length + 1) [to_] to_).reverse) = _
  rw [backWalk_of_get_none hto]
  rfl

theorem C4_pathfinding_unreachable_witness :
    pathfinding [(((0 : Int), (0 : Int)), false), (((2 : Int), (0 : Int)), false)]
      (0, 0) (2, 0) = .path [(2, 0)] := by
  apply C4_pathfinding_unreachable
  · decide
  · decide
  · intro hr
    rcases Relation.ReflTransGen.cases_head hr with heq | ⟨c, hc, -⟩
    · exact absurd heq (by decide)
    · unfold ReachStep at hc
      rw [show neighborsUnblocked
          [(((0 : Int), (0 : Int)), false), (((2 : Int), (0 : Int)), false)]
          (0, 0) = [] by decide] at hc
      exact absurd hc (List.not_mem_nil c)

end Hexing
